import Mathlib

/-!
Shallow embedding of the guest physical memory subsystem of DOSBox-X
(`src/hardware/memory.cpp`): stock page handlers, the page-handler table
and its slow path, the A20 gate and alias masks, port 0x92, the EMS/XMS
page allocator, callout installation, and the hardware address
auto-assigner.  Machine integers are modelled as `Nat` with explicit
masking/`% 2^w` where C truncation matters; `PageHandler*` becomes
`Option PageHandler` (`none` = NULL); functions that never return
(`E_Exit`, unbounded loops) are modelled as `Option` results (`none`).
-/

namespace DosboxMem

/-- The stock page-handler identities of memory.cpp.  Virtual dispatch is
modelled as a tagged sum; `other n` stands for a device-supplied handler
object (LFB, glide, callout-provided handlers, ...). -/
inductive PageHandler where
  | ram
  | rom
  | romAlias
  | unmapped
  | illegal
  | mem4gb
  | acpi
  | other (n : Nat)
deriving DecidableEq, Repr

/-- `MEM_CalloutObject` (fields from memory.cpp; the class itself is
declared in mem.h).  `m_handler` is the registered `MEM_CalloutHandler*`
(`none` = NULL); it is modelled as a function of the page only, since the
object reference the C++ handler also receives is just `self`.
`matchpage` abstracts `MEM_CalloutObject::MatchPage` (declared in mem.h,
outside src/): a per-object predicate over page numbers derived from
`m_base`/`mem_mask`. -/
structure MEM_CalloutObject where
  installed : Bool := false
  alloc : Bool := false
  getcounter : Nat := 0
  m_base : Nat := 0
  mem_mask : Nat := 0
  range_mask : Nat := 0
  alias_mask : Nat := 0
  m_handler : Option (Nat → Option PageHandler) := none
  matchpage : Nat → Bool := fun _ => false

/-- The `MemoryBlock` singleton of memory.cpp, together with the file-scope
globals that the modelled operations read (`a20_guest_changeable`,
`a20_fake_changeable`, `a20_fast_changeable`, `allow_port_92_reset`,
`pcibus_enable`, `isa_memory_hole_15mb`, the glide LFB override, the three
`MEM_callouts` vectors, `MemBase`, and the `XMS_START` constant from
mem.h, kept as a field so theorems hold for any value).
`phandlers` maps a page to `none` (NULL: slow path) or a handler;
`mhandles` is the allocator linked list (`0` free, `-1` chain end, `> 0`
next page); `membase` is the backing RAM byte array. -/
structure MemoryBlock where
  pages : Nat := 0
  handler_pages : Nat := 0
  reported_pages : Nat := 0
  reported_pages_4gb : Nat := 0
  phandlers : Nat → Option PageHandler := fun _ => none
  mhandles : Nat → Int := fun _ => 0
  a20_enabled : Bool := false
  a20_controlport : Nat := 0
  mem_alias_pagemask : Nat := 0
  mem_alias_pagemask_active : Nat := 0
  address_bits : Nat := 0
  hw_next_assign : Nat := 0
  xms_start : Nat := 0
  membase : Nat → Nat := fun _ => 0
  a20_guest_changeable : Bool := true
  a20_fake_changeable : Bool := false
  a20_fast_changeable : Bool := false
  allow_port_92_reset : Bool := true
  pcibus_enable : Bool := false
  isa_memory_hole_15mb : Bool := false
  glide_enabled : Bool := false
  glide_lfb_page : Nat := 0
  glide_pages : Nat := 0
  glide_handler : Option PageHandler := none
  mb_callouts : List MEM_CalloutObject := []
  pci_callouts : List MEM_CalloutObject := []
  isa_callouts : List MEM_CalloutObject := []

/-- Point update of an array modelled as a function. -/
def updIdx {α : Type} (f : Nat → α) (i : Nat) (v : α) : Nat → α :=
  fun p => if p = i then v else f p

/-! ## Stock handlers (§ UnmappedPageHandler, ROMPageHandler, RAMPageHandler) -/

/-- `UnmappedPageHandler::readb`: always 0xFF (real hardware open bus). -/
def UnmappedPageHandler_readb (_addr : Nat) : Nat := 0xFF

/-- `UnmappedPageHandler::writeb`: does nothing (write silently dropped). -/
def UnmappedPageHandler_writeb (s : MemoryBlock) (_addr _val : Nat) : MemoryBlock := s

/-- `RAMPageHandler::GetHostReadPt`, as a byte offset from `MemBase`.
`phys_page & ~0xFul == 0x100ul` is written `phys_page / 16 = 0x10`
(equal for every natural number). -/
def RAMPageHandler_GetHostReadPt (s : MemoryBlock) (phys_page : Nat) : Nat :=
  if ¬s.a20_fast_changeable ∨ phys_page / 16 = 0x10 then
    (phys_page &&& s.mem_alias_pagemask_active) * 4096
  else
    phys_page * 4096

/-- `ROMPageHandler::writeb`.  Returns the (unchanged) state and whether
the LOG(LOG_CPU,LOG_ERROR) message fires.  `addr & ~0x7FFF` on the 32-bit
`PhysPt` is `addr &&& 0xFFFF8000`. -/
def ROMPageHandler_writeb (pc98 : Bool) (s : MemoryBlock) (addr _val : Nat) :
    MemoryBlock × Bool :=
  if pc98 ∧ addr &&& 0xFFFF8000 = 0xE0000 then (s, false) else (s, true)

/-- `ROMPageHandler::writew`: identical structure to `writeb`. -/
def ROMPageHandler_writew (pc98 : Bool) (s : MemoryBlock) (addr _val : Nat) :
    MemoryBlock × Bool :=
  if pc98 ∧ addr &&& 0xFFFF8000 = 0xE0000 then (s, false) else (s, true)

/-- `ROMPageHandler::writed`: identical structure to `writeb`. -/
def ROMPageHandler_writed (pc98 : Bool) (s : MemoryBlock) (addr _val : Nat) :
    MemoryBlock × Bool :=
  if pc98 ∧ addr &&& 0xFFFF8000 = 0xE0000 then (s, false) else (s, true)

/-- Modelled from the spec: the `PageHandler` base class (paging.h, not
under src/) serves byte reads of a `PFLAG_READABLE` handler through its
host pointer: "callers may take `host_read_ptr(ppn)` and access the byte
range directly".  The ROM handler inherits `RAMPageHandler`'s
`GetHostReadPt`. -/
def ROMPageHandler_readb (s : MemoryBlock) (addr : Nat) : Nat :=
  s.membase (RAMPageHandler_GetHostReadPt s (addr / 4096) + addr % 4096)

/-! ## A20 gate (`MEM_A20_Enable`, `Init_AddressLimitAndGateMask`, port 0x92) -/

/-- Second half of `MEM_A20_Enable`: update the active alias mask from the
(already updated) `a20.enabled` when not fake and the mask has bit 0x100.
`&= ~0x100ul` on the `uint32_t` active mask is `&&& 0xFFFFFEFF`. -/
def MEM_A20_Enable_mask_update (s1 : MemoryBlock) : MemoryBlock :=
  if ¬s1.a20_fake_changeable ∧ s1.mem_alias_pagemask &&& 0x100 ≠ 0 then
    if s1.a20_enabled then
      { s1 with mem_alias_pagemask_active := s1.mem_alias_pagemask_active ||| 0x100 }
    else
      { s1 with mem_alias_pagemask_active := s1.mem_alias_pagemask_active &&& 0xFFFFFEFF }
  else s1

/-- `MEM_A20_Enable`: store the new state if guest- or fake-changeable,
then update the active alias mask.  The menu refresh and
`PAGING_ClearTLB` calls have no effect on `MemoryBlock` state and are
omitted. -/
def MEM_A20_Enable (s : MemoryBlock) (enabled : Bool) : MemoryBlock :=
  MEM_A20_Enable_mask_update
    (if s.a20_guest_changeable ∨ s.a20_fake_changeable then
      { s with a20_enabled := enabled } else s)

/-- The mask part of `Init_AddressLimitAndGateMask` (memory.cpp lines
1944-1953), given the already clamped `address_bits`:
`mem_alias_pagemask = ((1 << address_bits) - 1) >> 12`, `E_Exit` (here
`none`) if the mask does not cover 1MB, then
`mem_alias_pagemask_active = mem_alias_pagemask`, with bit 0x100 cleared
when `a20_fake_changeable` and A20 is off. -/
def Init_AddressLimitAndGateMask_masks (s : MemoryBlock) : Option MemoryBlock :=
  let mask := (2 ^ s.address_bits - 1) >>> 12
  if mask &&& 0xFF ≠ 0xFF then none
  else
    let active := if s.a20_fake_changeable ∧ ¬s.a20_enabled then
      mask &&& 0xFFFFFEFF else mask
    some { s with mem_alias_pagemask := mask, mem_alias_pagemask_active := active }

/-- `write_p92`: store `val & ~2` (as uint8) in the control port, drive A20
from bit 1; bit 0 requests a CPU reset when `allow_port_92_reset` (the
reset itself throws out of the core; we report it as the Bool). -/
def write_p92 (s : MemoryBlock) (val : Nat) : MemoryBlock × Bool :=
  let s1 := { s with a20_controlport := (val &&& 0xFFFFFFFD) % 256 }
  let s2 := MEM_A20_Enable s1 (val &&& 2 ≠ 0)
  (s2, val &&& 1 ≠ 0 ∧ s.allow_port_92_reset)

/-- `read_p92`: control port with bit 1 reflecting the live A20 state. -/
def read_p92 (s : MemoryBlock) : Nat :=
  s.a20_controlport ||| (if s.a20_enabled then 0x02 else 0)

/-! ## Callout slow path (`MEM_Gen_Callout`, `MEM_SlowPath`, `MEM_GetPageHandler`) -/

/-- The loop body of `MEM_Gen_Callout<iotype>`: walk the callout vector;
skip slots that are not installed, have no handler, or whose `MatchPage`
fails; on the first non-NULL response set `f` and bump `match`; on a
second non-NULL response `break` out of the loop (the `match++` after the
`else` branch is not reached).  Returns `(match, f)`. -/
def MEM_Gen_Callout_loop (page : Nat) : List MEM_CalloutObject → Nat → PageHandler →
    Nat × PageHandler
  | [], m, f => (m, f)
  | obj :: rest, m, f =>
    if ¬obj.installed then MEM_Gen_Callout_loop page rest m f
    else match obj.m_handler with
      | none => MEM_Gen_Callout_loop page rest m f
      | some handler =>
        if ¬obj.matchpage page then MEM_Gen_Callout_loop page rest m f
        else match handler page with
          | none => MEM_Gen_Callout_loop page rest m f
          | some t_f =>
            if m = 0 then MEM_Gen_Callout_loop page rest (m + 1) t_f
            else (m, f)

/-- `MEM_Gen_Callout` for a given bus vector. -/
def MEM_Gen_Callout (vec : List MEM_CalloutObject) (f : PageHandler) (page : Nat) :
    Nat × PageHandler :=
  MEM_Gen_Callout_loop page vec 0 f

/-- The number of installed callout slots whose registered handler
function returns a non-NULL handler for `page` — the quantity the spec
calls `match_count` ("#slots that returned non-null").  This definition
follows the spec's words, for comparison with `MEM_Gen_Callout`. -/
def respondersCountSpec (vec : List MEM_CalloutObject) (page : Nat) : Nat :=
  vec.countP (fun obj =>
    obj.installed && obj.matchpage page &&
      (match obj.m_handler with
        | none => false
        | some handler => (handler page).isSome))

/-- `MEM_SlowPath`: default to Unmapped (or RAM below `reported_pages`
outside the ISA 15MB hole), arbitrate MB then PCI then ISA, and cache the
result in `phandlers[page]` when `match <= 1`. -/
def MEM_SlowPath (s : MemoryBlock) (page : Nat) : PageHandler × MemoryBlock :=
  if page ≥ s.handler_pages then (PageHandler.illegal, s)
  else
    let f0 : PageHandler :=
      if page < s.reported_pages ∧
          ¬(0xf00 ≤ page ∧ page ≤ 0xfff ∧ s.isa_memory_hole_15mb) then
        PageHandler.ram
      else PageHandler.unmapped
    let r1 := MEM_Gen_Callout s.mb_callouts f0 page
    let r : Nat × PageHandler :=
      if r1.1 = 0 then
        if s.pcibus_enable then
          let r2 := MEM_Gen_Callout s.pci_callouts r1.2 page
          if r2.1 = 0 then MEM_Gen_Callout s.isa_callouts r2.2 page else r2
        else MEM_Gen_Callout s.isa_callouts r1.2 page
      else r1
    if r.1 ≤ 1 then (r.2, { s with phandlers := updIdx s.phandlers page (some r.2) })
    else (r.2, s)

/-- `MEM_GetPageHandler`: apply the active alias mask, honour the glide
LFB override, consult `phandlers` (NULL routes to `MEM_SlowPath`), then
the above-4GB region, else the Illegal handler.  The returned
`PageHandler*` is `Option PageHandler` (`none` = NULL). -/
def MEM_GetPageHandler (s : MemoryBlock) (phys_page : Nat) :
    Option PageHandler × MemoryBlock :=
  let p := phys_page &&& s.mem_alias_pagemask_active
  if s.glide_enabled ∧ s.glide_lfb_page ≤ p ∧ p < s.glide_lfb_page + s.glide_pages then
    (s.glide_handler, s)
  else if p < s.handler_pages then
    match s.phandlers p with
    | some h => (some h, s)
    | none =>
      let r := MEM_SlowPath s p
      (some r.1, r.2)
  else if 0x100000 ≤ p ∧ p < 0x100000 + s.reported_pages_4gb then
    (some PageHandler.mem4gb, s)
  else
    (some PageHandler.illegal, s)

/-! ## Concrete callout data used to evaluate the conflict path -/

/-- An installed callout slot that claims every page with handler `other 1`. -/
def conflictObjA : MEM_CalloutObject :=
  { installed := true, m_handler := some (fun _ => some (PageHandler.other 1)),
    matchpage := fun _ => true }

/-- A second installed slot that also claims every page, with `other 2`. -/
def conflictObjB : MEM_CalloutObject :=
  { installed := true, m_handler := some (fun _ => some (PageHandler.other 2)),
    matchpage := fun _ => true }

/-- A state whose MB bus carries the two conflicting slots above. -/
def conflictState : MemoryBlock :=
  { handler_pages := 0x10, mb_callouts := [conflictObjA, conflictObjB] }

/-! ## Theorems -/

/-- C1: for every physical page number `p` (under the invariant that the
glide override, when enabled, carries a non-NULL handler — it is
installed by the glide device), `MEM_GetPageHandler` returns a non-NULL
page handler: a NULL `phandlers` entry routes to `MEM_SlowPath`, which
always produces a handler, and pages past the table go to `Mem4GB` or
`Illegal`. -/
theorem MEM_GetPageHandler_ne_none (s : MemoryBlock) (p : Nat)
    (hglide : s.glide_enabled = true → s.glide_handler ≠ none) :
    (MEM_GetPageHandler s p).1 ≠ none := by
  unfold MEM_GetPageHandler
  dsimp only
  split
  · next h => exact hglide h.1
  · split
    · split <;> simp
    · split <;> simp

theorem MEM_GetPageHandler_ne_none_witness :
    (({} : MemoryBlock).glide_enabled = true → ({} : MemoryBlock).glide_handler ≠ none) ∧
    (MEM_GetPageHandler {} 0).1 ≠ none :=
  ⟨by decide, MEM_GetPageHandler_ne_none {} 0 (by decide)⟩

/-- C2 (evaluation of the code at the failing input): with two installed
MB callout slots both returning a non-NULL handler for page 5, the number
of responders is 2, yet `MEM_Gen_Callout` returns `match = 1` (the
`break` taken on the conflict skips the `match++`), so `MEM_SlowPath`
takes its `match <= 1` branch and caches the first handler in
`phandlers[5]` — although its own comment says that with more than one
responder the handler slot must not be updated. -/
theorem MEM_Gen_Callout_conflict_eval :
    respondersCountSpec conflictState.mb_callouts 5 = 2 ∧
    MEM_Gen_Callout conflictState.mb_callouts PageHandler.unmapped 5 =
      (1, PageHandler.other 1) ∧
    conflictState.phandlers 5 = none ∧
    (MEM_SlowPath conflictState 5).2.phandlers 5 = some (PageHandler.other 1) := by
  refine ⟨by decide, by decide, by decide, by decide⟩

/-- C3: a write of any value through the Unmapped handler is dropped
silently (the state is unchanged) and every read of any byte through it
returns 0xFF. -/
theorem unmapped_write_drops_and_reads_FF (s : MemoryBlock) (addr val addr2 : Nat) :
    UnmappedPageHandler_writeb s addr val = s ∧ UnmappedPageHandler_readb addr2 = 0xFF :=
  ⟨rfl, rfl⟩

/-- C4: every byte/word/dword write through the ROM handler leaves the
backing state (hence the backing bytes) unchanged, so a subsequent read
returns the byte that was there before the write; the write is silent
(no log) exactly in PC-98 mode for addresses in 0xE0000..0xE7FFF, and
logged otherwise. -/
theorem rom_writes_drop_and_preserve_backing (pc98 : Bool) (s : MemoryBlock)
    (addr val addr2 : Nat) :
    ((ROMPageHandler_writeb pc98 s addr val).1 = s ∧
      ROMPageHandler_readb (ROMPageHandler_writeb pc98 s addr val).1 addr2 =
        ROMPageHandler_readb s addr2 ∧
      ((ROMPageHandler_writeb pc98 s addr val).2 = false ↔
        pc98 = true ∧ addr &&& 0xFFFF8000 = 0xE0000)) ∧
    ((ROMPageHandler_writew pc98 s addr val).1 = s ∧
      ROMPageHandler_readb (ROMPageHandler_writew pc98 s addr val).1 addr2 =
        ROMPageHandler_readb s addr2 ∧
      ((ROMPageHandler_writew pc98 s addr val).2 = false ↔
        pc98 = true ∧ addr &&& 0xFFFF8000 = 0xE0000)) ∧
    ((ROMPageHandler_writed pc98 s addr val).1 = s ∧
      ROMPageHandler_readb (ROMPageHandler_writed pc98 s addr val).1 addr2 =
        ROMPageHandler_readb s addr2 ∧
      ((ROMPageHandler_writed pc98 s addr val).2 = false ↔
        pc98 = true ∧ addr &&& 0xFFFF8000 = 0xE0000)) := by
  unfold ROMPageHandler_writeb ROMPageHandler_writew ROMPageHandler_writed
  split <;> simp_all

/-! ## A20 / alias-mask lemmas -/

/-- The state invariant of the alias masks: the active mask agrees with
the configured mask on every bit other than bit 8 (value 0x100), and may
have bit 8 set only when the configured mask has it. -/
def aliasMaskInv (s : MemoryBlock) : Prop :=
  (∀ i, i ≠ 8 →
    s.mem_alias_pagemask_active.testBit i = s.mem_alias_pagemask.testBit i) ∧
  (s.mem_alias_pagemask_active.testBit 8 = true →
    s.mem_alias_pagemask.testBit 8 = true)

theorem mask_update_controlport (t : MemoryBlock) :
    (MEM_A20_Enable_mask_update t).a20_controlport = t.a20_controlport := by
  unfold MEM_A20_Enable_mask_update
  split
  · split <;> rfl
  · rfl

theorem mask_update_enabled (t : MemoryBlock) :
    (MEM_A20_Enable_mask_update t).a20_enabled = t.a20_enabled := by
  unfold MEM_A20_Enable_mask_update
  split
  · split <;> rfl
  · rfl

theorem mask_update_pagemask (t : MemoryBlock) :
    (MEM_A20_Enable_mask_update t).mem_alias_pagemask = t.mem_alias_pagemask := by
  unfold MEM_A20_Enable_mask_update
  split
  · split <;> rfl
  · rfl

theorem MEM_A20_Enable_controlport (s : MemoryBlock) (b : Bool) :
    (MEM_A20_Enable s b).a20_controlport = s.a20_controlport := by
  unfold MEM_A20_Enable
  rw [mask_update_controlport]
  split <;> rfl

theorem MEM_A20_Enable_enabled (s : MemoryBlock) (b : Bool) :
    (MEM_A20_Enable s b).a20_enabled =
      if s.a20_guest_changeable ∨ s.a20_fake_changeable then b else s.a20_enabled := by
  unfold MEM_A20_Enable
  rw [mask_update_enabled]
  split <;> rfl

theorem MEM_A20_Enable_pagemask (s : MemoryBlock) (b : Bool) :
    (MEM_A20_Enable s b).mem_alias_pagemask = s.mem_alias_pagemask := by
  unfold MEM_A20_Enable
  rw [mask_update_pagemask]
  split <;> rfl

theorem testBit_hi_mask (i : Nat) :
    (0xFFFFFEFF : Nat).testBit i = (decide (i < 32) && !(decide (i = 8))) := by
  have h : (0xFFFFFEFF : Nat) = (2 ^ 32 - 1) ^^^ 2 ^ 8 := by decide
  rw [h, Nat.testBit_xor, Nat.testBit_two_pow_sub_one, Nat.testBit_two_pow]
  rcases Nat.lt_or_ge i 32 with hlt | hge
  · simp [hlt, eq_comm]
  · have : ¬(i < 32) := by omega
    have h8 : ¬(8 = i) := by omega
    simp [this, h8]

theorem testBit_of_lt_32 {x i : Nat} (hx : x < 2 ^ 32) (hge : 32 ≤ i) :
    x.testBit i = false :=
  Nat.testBit_lt_two_pow (lt_of_lt_of_le hx (Nat.pow_le_pow_right (by norm_num) hge))

theorem mask_bit8_of_and (m : Nat) (h : m &&& 0x100 ≠ 0) : m.testBit 8 = true := by
  by_contra hb
  have hb' : m.testBit 8 = false := by
    cases h8 : m.testBit 8
    · rfl
    · exact absurd h8 hb
  have : m &&& 0x100 = 0 := by
    have h256 : (0x100 : Nat) = 2 ^ 8 := by norm_num
    rw [h256, Nat.and_two_pow, hb']
    simp
  exact h this


theorem and_0x100_of_bit8 (m : Nat) (h : m.testBit 8 = true) : m &&& 0x100 ≠ 0 := by
  have h256 : (0x100 : Nat) = 2 ^ 8 := by norm_num
  rw [h256, Nat.and_two_pow, h]
  simp

theorem testBit_0x100 (i : Nat) : (0x100 : Nat).testBit i = decide (i = 8) := by
  rw [show (0x100 : Nat) = 2 ^ 8 by norm_num, Nat.testBit_two_pow]
  simp [eq_comm]

/-- Full behaviour of the mask-update half of `MEM_A20_Enable` needed for
the alias-mask invariant. -/
theorem mask_update_spec (t : MemoryBlock) (hlt : t.mem_alias_pagemask < 2 ^ 32)
    (hinv : aliasMaskInv t) :
    aliasMaskInv (MEM_A20_Enable_mask_update t) ∧
    (t.a20_fake_changeable = false → t.mem_alias_pagemask.testBit 8 = true →
      ((MEM_A20_Enable_mask_update t).mem_alias_pagemask_active.testBit 8 =
          t.a20_enabled ∧
        ∀ i, i ≠ 8 →
          (MEM_A20_Enable_mask_update t).mem_alias_pagemask_active.testBit i =
            t.mem_alias_pagemask_active.testBit i)) := by
  have hhi : ∀ i, 32 ≤ i → t.mem_alias_pagemask_active.testBit i = false := by
    intro i hge
    have hi8 : i ≠ 8 := by omega
    rw [hinv.1 i hi8]
    exact testBit_of_lt_32 hlt hge
  unfold MEM_A20_Enable_mask_update
  split
  · next hcond =>
    have hm8 : t.mem_alias_pagemask.testBit 8 = true := mask_bit8_of_and _ hcond.2
    split
    · next hen =>
      refine ⟨⟨?_, ?_⟩, ?_⟩
      · intro i hi
        simp only [Nat.testBit_or, testBit_0x100, hi, decide_False, Bool.or_false]
        exact hinv.1 i hi
      · intro _
        exact hm8
      · intro _ _
        refine ⟨?_, ?_⟩
        · simp [Nat.testBit_or, testBit_0x100, hen]
        · intro i hi
          simp [Nat.testBit_or, testBit_0x100, hi]
    · next hen =>
      have hen' : t.a20_enabled = false := by
        cases h : t.a20_enabled
        · rfl
        · exact absurd h hen
      refine ⟨⟨?_, ?_⟩, ?_⟩
      · intro i hi
        simp only [Nat.testBit_and, testBit_hi_mask]
        rcases Nat.lt_or_ge i 32 with hlt2 | hge2
        · simp [hlt2, hi, hinv.1 i hi]
        · rw [hhi i hge2, testBit_of_lt_32 hlt hge2]
          simp
      · intro h8
        simp only [Nat.testBit_and, testBit_hi_mask] at h8
        simp at h8
      · intro _ _
        refine ⟨?_, ?_⟩
        · simp [Nat.testBit_and, testBit_hi_mask, hen']
        · intro i hi
          simp only [Nat.testBit_and, testBit_hi_mask]
          rcases Nat.lt_or_ge i 32 with hlt2 | hge2
          · simp [hlt2, hi]
          · rw [hhi i hge2]
            simp
  · next hcond =>
    refine ⟨hinv, ?_⟩
    intro hfake hm8
    exact absurd ⟨by simp [hfake], and_0x100_of_bit8 _ hm8⟩ hcond

/-- C5: the alias-pagemask invariant — `alias_pagemask_active` agrees with
`alias_pagemask` outside bit 0x100 and is a submask of it (so
`active & ~mask == 0`) — is established by the mask computation of
`Init_AddressLimitAndGateMask` and preserved by `MEM_A20_Enable`;
moreover `MEM_A20_Enable b` in non-fake mode, when bit 0x100 is present
in `alias_pagemask`, sets bit 0x100 of the active mask iff A20 is
enabled afterwards and leaves all other bits of the active mask
unchanged. -/
theorem alias_pagemask_invariant :
    (∀ s s1 : MemoryBlock, s.address_bits ≤ 40 →
      Init_AddressLimitAndGateMask_masks s = some s1 → aliasMaskInv s1) ∧
    (∀ (s : MemoryBlock) (b : Bool), s.mem_alias_pagemask < 2 ^ 32 → aliasMaskInv s →
      aliasMaskInv (MEM_A20_Enable s b) ∧
      (s.a20_fake_changeable = false → s.mem_alias_pagemask.testBit 8 = true →
        ((MEM_A20_Enable s b).mem_alias_pagemask_active.testBit 8 =
            (MEM_A20_Enable s b).a20_enabled ∧
          ∀ i, i ≠ 8 →
            (MEM_A20_Enable s b).mem_alias_pagemask_active.testBit i =
              s.mem_alias_pagemask_active.testBit i))) := by
  constructor
  · intro s s1 hbits hinit
    unfold Init_AddressLimitAndGateMask_masks at hinit
    have hmask : (2 ^ s.address_bits - 1) >>> 12 < 2 ^ 32 := by
      rw [Nat.shiftRight_eq_div_pow]
      have h1 : 2 ^ s.address_bits - 1 < 2 ^ 32 * 2 ^ 12 := by
        have : (2 : Nat) ^ s.address_bits ≤ 2 ^ 40 :=
          Nat.pow_le_pow_right (by norm_num) hbits
        have h2 : (2 : Nat) ^ 40 ≤ 2 ^ 32 * 2 ^ 12 := by norm_num
        omega
      exact Nat.div_lt_of_lt_mul h1
    dsimp only at hinit
    split at hinit
    · exact absurd hinit (by simp)
    · rw [Option.some_inj] at hinit
      subst hinit
      constructor
      · intro i hi
        dsimp only
        split
        · rw [Nat.testBit_and, testBit_hi_mask]
          rcases Nat.lt_or_ge i 32 with hlt | hge
          · simp [hlt, hi]
          · rw [testBit_of_lt_32 hmask hge]
            simp
        · rfl
      · intro h8
        dsimp only at h8 ⊢
        split at h8
        · rw [Nat.testBit_and, testBit_hi_mask] at h8
          simp at h8
        · exact h8
  · intro s b hlt hinv
    by_cases hc : s.a20_guest_changeable = true ∨ s.a20_fake_changeable = true
    · have h := mask_update_spec { s with a20_enabled := b } hlt hinv
      simpa [MEM_A20_Enable, hc, mask_update_enabled] using h
    · have h := mask_update_spec s hlt hinv
      simpa [MEM_A20_Enable, hc, mask_update_enabled] using h

theorem alias_pagemask_invariant_witness :
    (({ address_bits := 32 } : MemoryBlock).address_bits ≤ 40 ∧
      ({ mem_alias_pagemask := 0xFF, mem_alias_pagemask_active := 0xFF } :
          MemoryBlock).mem_alias_pagemask < 2 ^ 32) ∧
    aliasMaskInv
      (MEM_A20_Enable
        { mem_alias_pagemask := 0xFF, mem_alias_pagemask_active := 0xFF } true) :=
  ⟨⟨by decide, by norm_num⟩,
    (alias_pagemask_invariant.2
      { mem_alias_pagemask := 0xFF, mem_alias_pagemask_active := 0xFF } true
      (by norm_num) ⟨fun _ _ => rfl, fun h => h⟩).1⟩

/-- A state whose A20 gate is not guest-changeable (`a20=on/off` modes),
with A20 currently disabled. -/
def port92State : MemoryBlock := { a20_guest_changeable := false }

/-- C10: port 0x92 readback reflects the real A20 state, not the last
written value: `write_p92` stores `val & ~2` (as uint8) in
`a20.controlport` and drives A20 from bit 1; `read_p92` returns the
control port with bit 1 set iff A20 is currently enabled; when A20 is
neither guest- nor fake-changeable the A20 state is unchanged by the
write, so (concretely, in `port92State`) writing 0x02 reads back bit 1
clear although bit 1 was written set. -/
theorem port92_readback :
    (∀ (s : MemoryBlock) (val : Nat),
      (write_p92 s val).1.a20_controlport = (val &&& 0xFFFFFFFD) % 256 ∧
      (read_p92 (write_p92 s val).1).testBit 1 = (write_p92 s val).1.a20_enabled ∧
      (s.a20_guest_changeable = false → s.a20_fake_changeable = false →
        (write_p92 s val).1.a20_enabled = s.a20_enabled)) ∧
    ((read_p92 (write_p92 port92State 0x02).1).testBit 1 = false ∧
      (0x02 : Nat).testBit 1 = true) := by
  constructor
  · intro s val
    have hcp : (write_p92 s val).1.a20_controlport = (val &&& 0xFFFFFFFD) % 256 := by
      unfold write_p92
      rw [MEM_A20_Enable_controlport]
    have hbit : ((val &&& 0xFFFFFFFD) % 256).testBit 1 = false := by
      rw [show (256 : Nat) = 2 ^ 8 by norm_num, ← Nat.and_pow_two_sub_one_eq_mod]
      simp only [Nat.testBit_and]
      rw [show (0xFFFFFFFD : Nat).testBit 1 = false by decide]
      simp
    refine ⟨hcp, ?_, ?_⟩
    · unfold read_p92
      rw [hcp]
      simp only [Nat.testBit_or, hbit, Bool.false_or]
      cases h : (write_p92 s val).1.a20_enabled <;> (simp [h]; try decide)
    · intro hg hf
      unfold write_p92
      rw [MEM_A20_Enable_enabled]
      simp [hg, hf]
  · exact ⟨by decide, by decide⟩

theorem port92_readback_witness :
    (port92State.a20_guest_changeable = false ∧
      port92State.a20_fake_changeable = false) ∧
    (write_p92 port92State 2).1.a20_enabled = port92State.a20_enabled :=
  ⟨⟨rfl, rfl⟩, (port92_readback.1 port92State 2).2.2 rfl rfl⟩

/-! ## Callout install (`MEM_CalloutObject::Install`) -/

/-- One of the two mask-scanning loops of `MEM_CalloutObject::Install`:
`while ((test & m) == m) { acc = m; m = (m << 1) + 1; }`, returning the
final `(acc, m)`.  The fuel bounds the iteration count; 70 iterations
cover every `test < 2^69`, far beyond any value a 64-bit `Bitu` mask can
produce, so the fuel-exhaustion case is unreachable on C-representable
inputs. -/
def maskLoop : Nat → Nat → Nat → Nat → Nat × Nat
  | 0, _test, m, acc => (acc, m)
  | fuel + 1, test, m, acc =>
    if test &&& m = m then maskLoop fuel test ((m <<< 1) + 1) m
    else (acc, m)

/-- `MEM_InvalidateCachedHandler`: null `range` handler-table entries
starting at `phys_page`. -/
def MEM_InvalidateCachedHandler (s : MemoryBlock) : Nat → Nat → MemoryBlock
  | _phys_page, 0 => s
  | phys_page, r + 1 =>
    MEM_InvalidateCachedHandler
      { s with phandlers := updIdx s.phandlers phys_page none } (phys_page + 1) r

/-- The loop of `MEM_CalloutObject::InvalidateCachedHandlers`: for
`p = m_base`, stepping by `alias_mask+1` while `p < handler_pages`,
invalidate `range_mask+1` pages.  Fuel `handler_pages + 1` suffices since
`p` grows by at least 1 per pass. -/
def invalidateAliases : Nat → MemoryBlock → Nat → Nat → Nat → MemoryBlock
  | 0, s, _alias_mask, _range_mask, _p => s
  | fuel + 1, s, alias_mask, range_mask, p =>
    if p < s.handler_pages then
      invalidateAliases fuel (MEM_InvalidateCachedHandler s p (range_mask + 1))
        alias_mask range_mask (p + alias_mask + 1)
    else s

/-- `MEM_CalloutObject::InvalidateCachedHandlers`. -/
def MEM_CalloutObject_InvalidateCachedHandlers (s : MemoryBlock)
    (obj : MEM_CalloutObject) : MemoryBlock :=
  invalidateAliases (s.handler_pages + 1) s obj.alias_mask obj.range_mask obj.m_base

/-- `MEM_CalloutObject::Install`: validate the page mask (decomposing it
into `range_mask` — low zero bits — and `alias_mask` — extended over the
middle one bits), reject on any malformed mask (note the object's
`range_mask`/`alias_mask` scratch fields are written even on the paths
that reject), then mark installed and invalidate the cached handlers.
`pagemask & ~0xFFFFFFFU` keeps only bits 28..31 of the 64-bit `Bitu`
(the `unsigned int` complement is zero-extended), hence
`pagemask &&& 0xF0000000`. -/
def MEM_CalloutObject_Install (s : MemoryBlock) (obj : MEM_CalloutObject)
    (page pagemask : Nat) (handler : Option (Nat → Option PageHandler)) :
    MemoryBlock × MEM_CalloutObject :=
  if obj.installed then (s, obj)
  else if pagemask = 0 ∨ pagemask &&& 0xF0000000 ≠ 0 then (s, obj)
  else
    match maskLoop 70 (pagemask ^^^ 0xFFFFFFF) 1 0 with
    | (rm, m1) =>
      if pagemask &&& rm ≠ 0 ∨ (rm + 1) &&& rm ≠ 0 then
        (s, { obj with range_mask := rm })
      else
        match maskLoop 70 (pagemask + rm) m1 rm with
        | (am, _m2) =>
          if pagemask ^^^ rm ^^^ am ≠ 0 ∨ (am + 1) &&& am ≠ 0 then
            (s, { obj with range_mask := rm, alias_mask := am })
          else if page &&& rm ≠ 0 then
            (s, { obj with range_mask := rm, alias_mask := am })
          else
            (MEM_CalloutObject_InvalidateCachedHandlers s
                { obj with
                  range_mask := rm
                  alias_mask := am
                  installed := true
                  m_base := page
                  mem_mask := pagemask
                  m_handler := handler },
              { obj with
                range_mask := rm
                alias_mask := am
                installed := true
                m_base := page
                mem_mask := pagemask
                m_handler := handler })

/-- C8 counterexample: installing at `base_page = 0x10000` with
`mem_mask = 0x1FFF0` is NOT rejected — the mask's one bits (4..16) are
contiguous, the computed `alias_mask` is 0x1FFFF and `alias_mask + 1 =
0x20000` IS a power of two, so the install succeeds. -/
theorem install_0x1FFF0_not_rejected :
    (MEM_CalloutObject_Install {} {} 0x10000 0x1FFF0 none).2.installed = true ∧
    (MEM_CalloutObject_Install {} {} 0x10000 0x1FFF0 none).2.alias_mask = 0x1FFFF ∧
    ((0x1FFFF + 1) &&& (0x1FFFF : Nat)) = 0 := by
  refine ⟨by decide, by decide, by decide⟩

/-- C8 (amended): installing at `base_page = 0x10000` with
`mem_mask = 0x0FFF0` succeeds with `range_mask = 0x0F` and
`alias_mask = 0xFFFF`; installing with `mem_mask = 0x1FFF0` also
succeeds, computing `range_mask = 0x0F` and `alias_mask = 0x1FFFF`. -/
theorem install_mask_decomposition_eval :
    ((MEM_CalloutObject_Install {} {} 0x10000 0x0FFF0 none).2.installed = true ∧
      (MEM_CalloutObject_Install {} {} 0x10000 0x0FFF0 none).2.range_mask = 0x0F ∧
      (MEM_CalloutObject_Install {} {} 0x10000 0x0FFF0 none).2.alias_mask = 0xFFFF) ∧
    ((MEM_CalloutObject_Install {} {} 0x10000 0x1FFF0 none).2.installed = true ∧
      (MEM_CalloutObject_Install {} {} 0x10000 0x1FFF0 none).2.range_mask = 0x0F ∧
      (MEM_CalloutObject_Install {} {} 0x10000 0x1FFF0 none).2.alias_mask = 0x1FFFF) := by
  refine ⟨⟨by decide, by decide, by decide⟩, ⟨by decide, by decide, by decide⟩⟩

/-! ## Hardware address auto-assigner (`MEM_HardwareAllocate`) -/

/-- Modelled from the spec: `bitop::ispowerof2` (bitop.h, not under
src/); the spec requires "`size` must be a power of 2". -/
def ispowerof2 (v : Nat) : Bool := (v != 0) && (v &&& (v - 1) == 0)

/-- The cursor after the aligning step of `MEM_HardwareAllocate`:
`hw_next_assign += sz - 1; hw_next_assign &= ~(sz - 1)` on the
`uint32_t` cursor, performed only when the cursor is below 0xFE000000.
`~(sz - 1ul)` over 64-bit `Bitu` is `2^64 - sz` (for `sz ≠ 0`); ANDing
it with a value `< 2^32` equals the C `uint32_t` result. -/
def hwAlignedCursor (s : MemoryBlock) (sz : Nat) : Nat :=
  if s.hw_next_assign < 0xFE000000 then
    ((s.hw_next_assign + (sz - 1)) % 2 ^ 32) &&& (2 ^ 64 - sz)
  else s.hw_next_assign

/-- `MEM_HardwareAllocate`: require a nonzero power-of-2 size, align the
cursor, and if the aligned cursor is still below 0xFE000000 reserve `sz`
bytes there; otherwise return 0 (the aligned bump of the cursor is kept
even on failure, as in the source). -/
def MEM_HardwareAllocate (s : MemoryBlock) (sz : Nat) : Nat × MemoryBlock :=
  if sz ≠ 0 ∧ ispowerof2 sz = true then
    if hwAlignedCursor s sz < 0xFE000000 then
      (hwAlignedCursor s sz,
        { s with hw_next_assign := (hwAlignedCursor s sz + sz) % 2 ^ 32 })
    else (0, { s with hw_next_assign := hwAlignedCursor s sz })
  else (0, s)

/-- A state whose hardware-assign cursor sits at 0xFC000000. -/
def hwState : MemoryBlock := { hw_next_assign := 0xFC000000 }

/-- C9 counterexample: with the cursor at 0xFC000000, allocating a 64MB
(`2^26`) region succeeds and returns 0xFC000000, although the reserved
region `[0xFC000000, 0x100000000)` crosses 0xFE000000 — only the aligned
base is checked against the limit, not the end of the region. -/
theorem hw_allocate_crossing_succeeds :
    (MEM_HardwareAllocate hwState 0x4000000).1 = 0xFC000000 ∧
    (0xFC000000 : Nat) ≠ 0 ∧
    (0xFC000000 : Nat) < 0xFE000000 ∧
    (0xFE000000 : Nat) < 0xFC000000 + 0x4000000 := by
  refine ⟨by decide, by decide, by decide, by decide⟩

theorem land_two_pow_compl (y k : Nat) (hy : y < 2 ^ 64) (hk : k ≤ 64) :
    y &&& (2 ^ 64 - 2 ^ k) = y - y % 2 ^ k := by
  have h1 : (2 : Nat) ^ (64 - k) * 2 ^ k = 2 ^ 64 := by
    rw [← pow_add]
    congr 1
    omega
  have hm : (2 : Nat) ^ 64 - 2 ^ k = 2 ^ k * (2 ^ (64 - k) - 1) := by
    rw [Nat.mul_comm, Nat.sub_one_mul, h1]
  have hr : y - y % 2 ^ k = 2 ^ k * (y / 2 ^ k) := by
    have := Nat.mod_add_div y (2 ^ k)
    omega
  rw [hm, hr]
  apply Nat.eq_of_testBit_eq
  intro i
  rw [Nat.testBit_and, Nat.testBit_mul_pow_two, Nat.testBit_mul_pow_two]
  by_cases hki : k ≤ i
  · have hdiv : (y / 2 ^ k).testBit (i - k) = y.testBit i := by
      rw [← Nat.shiftRight_eq_div_pow, Nat.testBit_shiftRight]
      congr 1
      omega
    rw [hdiv, Nat.testBit_two_pow_sub_one]
    by_cases hi64 : i < 64
    · have h2 : i - k < 64 - k := by omega
      simp [hki, h2]
    · have hf : y.testBit i = false :=
        Nat.testBit_lt_two_pow
          (lt_of_lt_of_le hy (Nat.pow_le_pow_right (by norm_num) (by omega)))
      simp [hki, hf]
  · simp [hki]

/-- C9 (amended): `MEM_HardwareAllocate` requires a nonzero power-of-2
size; it returns the size-aligned advance of the cursor (kept in the
state, plus the reserved `sz` bytes) exactly when that aligned base is
below 0xFE000000, and 0 otherwise (the cursor still takes the aligned
bump); when the advance does not overflow the 32-bit cursor, the aligned
base is the next `2^k`-aligned address at or above the old cursor.  The
reserved region may extend past 0xFE000000 (only the base is checked). -/
theorem MEM_HardwareAllocate_spec (s : MemoryBlock) (k : Nat) (hk : k ≤ 31)
    (hhw : s.hw_next_assign < 2 ^ 32) :
    (hwAlignedCursor s (2 ^ k) < 0xFE000000 →
      (MEM_HardwareAllocate s (2 ^ k)).1 = hwAlignedCursor s (2 ^ k) ∧
      (MEM_HardwareAllocate s (2 ^ k)).2.hw_next_assign =
        (hwAlignedCursor s (2 ^ k) + 2 ^ k) % 2 ^ 32) ∧
    (¬hwAlignedCursor s (2 ^ k) < 0xFE000000 →
      (MEM_HardwareAllocate s (2 ^ k)).1 = 0 ∧
      (MEM_HardwareAllocate s (2 ^ k)).2.hw_next_assign = hwAlignedCursor s (2 ^ k)) ∧
    (s.hw_next_assign < 0xFE000000 → s.hw_next_assign + 2 ^ k ≤ 2 ^ 32 →
      (hwAlignedCursor s (2 ^ k) % 2 ^ k = 0 ∧
        s.hw_next_assign ≤ hwAlignedCursor s (2 ^ k) ∧
        hwAlignedCursor s (2 ^ k) < s.hw_next_assign + 2 ^ k)) := by
  have hkpos : 0 < (2 : Nat) ^ k := pow_pos (by norm_num) k
  have hpow : ispowerof2 (2 ^ k) = true := by
    unfold ispowerof2
    rw [Nat.and_pow_two_sub_one_eq_mod, Nat.mod_self]
    simp [hkpos.ne']
  have hcond : (2 : Nat) ^ k ≠ 0 ∧ ispowerof2 (2 ^ k) = true :=
    ⟨hkpos.ne', hpow⟩
  refine ⟨?_, ?_, ?_⟩
  · intro hlt
    unfold MEM_HardwareAllocate
    rw [if_pos hcond, if_pos hlt]
    exact ⟨rfl, rfl⟩
  · intro hge
    unfold MEM_HardwareAllocate
    rw [if_pos hcond, if_neg hge]
    exact ⟨rfl, rfl⟩
  · intro hlo hnw
    have hy32 : s.hw_next_assign + (2 ^ k - 1) < 2 ^ 32 := by omega
    have hcur : hwAlignedCursor s (2 ^ k) =
        (s.hw_next_assign + (2 ^ k - 1)) - (s.hw_next_assign + (2 ^ k - 1)) % 2 ^ k := by
      unfold hwAlignedCursor
      rw [if_pos hlo, Nat.mod_eq_of_lt hy32]
      exact land_two_pow_compl _ k (by omega) (by omega)
    have hmlt : (s.hw_next_assign + (2 ^ k - 1)) % 2 ^ k < 2 ^ k :=
      Nat.mod_lt _ hkpos
    have hdm : (s.hw_next_assign + (2 ^ k - 1)) -
        (s.hw_next_assign + (2 ^ k - 1)) % 2 ^ k =
        2 ^ k * ((s.hw_next_assign + (2 ^ k - 1)) / 2 ^ k) := by
      have := Nat.mod_add_div (s.hw_next_assign + (2 ^ k - 1)) (2 ^ k)
      omega
    refine ⟨?_, by omega, by omega⟩
    rw [hcur, hdm]
    exact Nat.mul_mod_right _ _

theorem MEM_HardwareAllocate_spec_witness :
    ((12 : Nat) ≤ 31 ∧
      ({ hw_next_assign := 0x1000 } : MemoryBlock).hw_next_assign < 2 ^ 32 ∧
      hwAlignedCursor { hw_next_assign := 0x1000 } (2 ^ 12) < 0xFE000000) ∧
    (MEM_HardwareAllocate { hw_next_assign := 0x1000 } (2 ^ 12)).1 =
      hwAlignedCursor { hw_next_assign := 0x1000 } (2 ^ 12) ∧
    (MEM_HardwareAllocate { hw_next_assign := 0x1000 } (2 ^ 12)).2.hw_next_assign =
      (hwAlignedCursor { hw_next_assign := 0x1000 } (2 ^ 12) + 2 ^ 12) % 2 ^ 32 :=
  ⟨⟨by decide, by norm_num, by decide⟩,
    (MEM_HardwareAllocate_spec { hw_next_assign := 0x1000 } 12 (by decide)
      (by norm_num)).1 (by decide)⟩

/-! ## EMS/XMS page allocator (`MEM_FreeTotal`, `BestMatch`,
`MEM_AllocatePages`, `MEM_AllocatePages_A20_friendly`,
`MEM_ReleasePages`) -/

/-- The counting loop of `MEM_FreeTotal`, with the remaining iteration
count as the structural argument: counts indices with `mhandles == 0`. -/
def freeTotalCount (mh : Nat → Int) : Nat → Nat → Nat
  | _index, 0 => 0
  | index, n + 1 => (if mh index = 0 then 1 else 0) + freeTotalCount mh (index + 1) n

/-- `MEM_FreeTotal`: free page count over `[XMS_START, reported_pages)`. -/
def MEM_FreeTotal (s : MemoryBlock) : Nat :=
  freeTotalCount s.mhandles s.xms_start (s.reported_pages - s.xms_start)

/-- The scanning loop of `BestMatch` with explicit fuel (the index grows
by 1 each iteration, so fuel `reported` always outlasts the loop; the
fuel-exhausted case evaluates the same final block the loop exit does).
State: current `index`, `first` (0 = not in a free run), `best`,
`best_first`.  Returns the chosen start page or 0. -/
def BestMatchScan (mh : Nat → Int) (reported size : Nat) :
    Nat → Nat → Nat → Nat → Nat → Nat
  | 0, index, first, best, best_first =>
    if first ≠ 0 ∧ size ≤ index - first ∧ index - first < best then first
    else best_first
  | fuel + 1, index, first, best, best_first =>
    if index < reported then
      if first = 0 then
        if mh index = 0 then
          BestMatchScan mh reported size fuel (index + 1) index best best_first
        else
          BestMatchScan mh reported size fuel (index + 1) 0 best best_first
      else
        if mh index ≠ 0 then
          if index - first = size then first
          else if size < index - first ∧ index - first < best then
            BestMatchScan mh reported size fuel (index + 1) 0 (index - first) first
          else
            BestMatchScan mh reported size fuel (index + 1) 0 best best_first
        else
          BestMatchScan mh reported size fuel (index + 1) first best best_first
    else
      if first ≠ 0 ∧ size ≤ index - first ∧ index - first < best then first
      else best_first

/-- `BestMatch` over a given `mhandles` array (the state fields other
than the array are taken from `s`; the non-sequence allocation loop
re-runs it on the partially updated array). -/
def bmClosure (s : MemoryBlock) (size : Nat) : (Nat → Int) → Nat :=
  fun mh => BestMatchScan mh s.reported_pages size s.reported_pages s.xms_start 0 0xfffffff 0

/-- `BestMatch`. -/
def BestMatch (s : MemoryBlock) (size : Nat) : Nat :=
  bmClosure s size s.mhandles

/-- The scanning loop of `BestMatch_A20_friendly`: like `BestMatchScan`,
but any index on an odd megabyte (`index & 0x100`) is skipped (jumping to
`(index | 0xFF) + 1` when searching) or closes the current run. -/
def BestMatchA20Scan (mh : Nat → Int) (reported size : Nat) :
    Nat → Nat → Nat → Nat → Nat → Nat
  | 0, index, first, best, best_first =>
    if first ≠ 0 ∧ size ≤ index - first ∧ index - first < best then first
    else best_first
  | fuel + 1, index, first, best, best_first =>
    if index < reported then
      if first = 0 then
        if index &&& 0x100 ≠ 0 then
          BestMatchA20Scan mh reported size fuel ((index ||| 0xFF) + 1) first best best_first
        else if mh index = 0 then
          BestMatchA20Scan mh reported size fuel (index + 1) index best best_first
        else
          BestMatchA20Scan mh reported size fuel (index + 1) 0 best best_first
      else
        if mh index ≠ 0 ∨ index &&& 0x100 ≠ 0 then
          if index - first = size then first
          else if size < index - first ∧ index - first < best then
            BestMatchA20Scan mh reported size fuel (index + 1) 0 (index - first) first
          else
            BestMatchA20Scan mh reported size fuel (index + 1) 0 best best_first
        else
          BestMatchA20Scan mh reported size fuel (index + 1) first best best_first
    else
      if first ≠ 0 ∧ size ≤ index - first ∧ index - first < best then first
      else best_first

/-- `BestMatch_A20_friendly` over a given array: gives up immediately
when more than 0x100 pages are requested. -/
def bmA20Closure (s : MemoryBlock) (size : Nat) : (Nat → Int) → Nat :=
  fun mh =>
    if 0x100 < size then 0
    else BestMatchA20Scan mh s.reported_pages size s.reported_pages s.xms_start 0 0xfffffff 0

/-- `BestMatch_A20_friendly`. -/
def BestMatch_A20_friendly (s : MemoryBlock) (size : Nat) : Nat :=
  bmA20Closure s size s.mhandles

/-- The chain-threading loop of the `sequence` branch of
`MEM_AllocatePages`: the first loop iteration stores `index` in `ret`
(done by the caller), each later one links the previous page to the next,
and the final `*next = -1` terminates the chain: for `pages ≥ 1` this
writes `mhandles[index + i] = index + i + 1` for `i < pages - 1` and
`mhandles[index + pages - 1] = -1`. -/
def threadChainSeq : (Nat → Int) → Nat → Nat → (Nat → Int)
  | mh, _index, 0 => mh
  | mh, index, 1 => updIdx mh index (-1)
  | mh, index, n + 2 =>
    threadChainSeq (updIdx mh index (Int.ofNat (index + 1))) (index + 1) (n + 1)

/-- `*next = v` for the pointer `next`, which is either `&ret` (`none`)
or `&mhandles[p]` (`some p`).  Returns the updated `(mhandles, ret)`. -/
def writeNext (mh : Nat → Int) (next : Option Nat) (ret : Int) (v : Int) :
    (Nat → Int) × Int :=
  match next with
  | none => (mh, v)
  | some p => (updIdx mh p v, ret)

/-- The inner loop of the non-sequence branch:
`while (pages && !mhandles[index]) { *next = index; next = &mhandles[index]; index++; pages--; }`.
Returns the final `(mhandles, index, pages, next, ret)`. -/
def gatherInner : (Nat → Int) → Nat → Nat → Option Nat → Int →
    (Nat → Int) × Nat × Nat × Option Nat × Int
  | mh, index, 0, next, ret => (mh, index, 0, next, ret)
  | mh, index, p + 1, next, ret =>
    if mh index = 0 then
      match writeNext mh next ret (Int.ofNat index) with
      | (mh1, ret1) => gatherInner mh1 (index + 1) p (some index) ret1
    else (mh, index, p + 1, next, ret)

/-- The outer loop of the non-sequence branch, parameterised by the
best-match function applied to the current array (`BestMatch(1)` or its
A20-friendly variant).  A zero best-match is `E_Exit` (`none`); the fuel
(one unit per outer pass; the caller passes the page count, and a pass
that consumes no page repeats forever in the source) turns
non-termination into `none` as well.  Ends with `*next = -1`. -/
def gatherOuter (bm : (Nat → Int) → Nat) :
    Nat → (Nat → Int) → Nat → Option Nat → Int → Option ((Nat → Int) × Int)
  | 0, mh, pages, _next, ret => if pages = 0 then some (mh, ret) else none
  | fuel + 1, mh, pages, next, ret =>
    if pages = 0 then some (mh, ret)
    else if bm mh = 0 then none
    else
      match gatherInner mh (bm mh) pages next ret with
      | (mh1, _index1, pages1, next1, ret1) =>
        match writeNext mh1 next1 ret1 (-1) with
        | (mh2, ret2) => gatherOuter bm fuel mh2 pages1 next1 ret2

/-- `MEM_AllocatePages`: returns `none` when the source would `E_Exit`
(or loop forever); otherwise `some (handle, new state)`, with handle 0 on
ordinary failure. -/
def MEM_AllocatePages (s : MemoryBlock) (pages : Nat) (sequence : Bool) :
    Option (Int × MemoryBlock) :=
  if pages = 0 then some (0, s)
  else if sequence then
    if BestMatch s pages = 0 then some (0, s)
    else some (Int.ofNat (BestMatch s pages),
      { s with mhandles := threadChainSeq s.mhandles (BestMatch s pages) pages })
  else
    if MEM_FreeTotal s < pages then some (0, s)
    else
      match gatherOuter (bmClosure s 1) pages s.mhandles pages none 0 with
      | none => none
      | some (mh2, ret) => some (ret, { s with mhandles := mh2 })

/-- `MEM_AllocatePages_A20_friendly`: identical structure with the
A20-friendly best match (the `C_DEBUG`-only `E_Exit` assertions are not
part of the release build and are omitted). -/
def MEM_AllocatePages_A20_friendly (s : MemoryBlock) (pages : Nat) (sequence : Bool) :
    Option (Int × MemoryBlock) :=
  if pages = 0 then some (0, s)
  else if sequence then
    if BestMatch_A20_friendly s pages = 0 then some (0, s)
    else some (Int.ofNat (BestMatch_A20_friendly s pages),
      { s with mhandles :=
          threadChainSeq s.mhandles (BestMatch_A20_friendly s pages) pages })
  else
    if MEM_FreeTotal s < pages then some (0, s)
    else
      match gatherOuter (bmA20Closure s 1) pages s.mhandles pages none 0 with
      | none => none
      | some (mh2, ret) => some (ret, { s with mhandles := mh2 })

/-- The release walk of `MEM_ReleasePages`:
`while (handle > 0) { next = mhandles[handle]; mhandles[handle] = 0; handle = next; }`,
with fuel turning a (corrupt-state) endless walk into `none`. -/
def releaseLoop : Nat → (Nat → Int) → Int → Option (Nat → Int)
  | 0, mh, handle => if handle ≤ 0 then some mh else none
  | fuel + 1, mh, handle =>
    if handle ≤ 0 then some mh
    else releaseLoop fuel (updIdx mh handle.toNat 0) (mh handle.toNat)

/-- `MEM_ReleasePages` (the `mhandles == NULL` early-out never applies:
the model always carries the array). -/
def MEM_ReleasePages (s : MemoryBlock) (handle : Int) (fuel : Nat) :
    Option MemoryBlock :=
  (releaseLoop fuel s.mhandles handle).map (fun mh => { s with mhandles := mh })

/-- The pages on the `mhandles` chain starting at a handle (walking while
the handle is positive, with fuel). -/
def chainList : Nat → (Nat → Int) → Int → List Nat
  | 0, _mh, _h => []
  | fuel + 1, mh, h => if h ≤ 0 then [] else h.toNat :: chainList fuel mh (mh h.toNat)

/-- A state with exactly two free pages, 0xFF and 0x100, on either side
of an odd-megabyte boundary. -/
def a20FailState : MemoryBlock :=
  { reported_pages := 0x102
    xms_start := 0xFE
    mhandles := fun p => if p = 0xFF ∨ p = 0x100 then 0 else 1 }

/-- C6 (evaluation of the code at the failing input): requesting
`MEM_AllocatePages_A20_friendly(2, sequence=false)` in `a20FailState`
succeeds with handle 0xFF, and the returned chain is
`[0xFF, 0x100]` — the inner gather loop checks only `mhandles[index]`,
not `index & 0x100`, so it walks across the odd-megabyte boundary and
the chain contains page 0x100, whose bit 0x100 is set, contrary to the
function's guarantee. -/
theorem a20_friendly_chain_crosses_megabyte :
    (MEM_AllocatePages_A20_friendly a20FailState 2 false).map Prod.fst =
      some 0xFF ∧
    (MEM_AllocatePages_A20_friendly a20FailState 2 false).map
        (fun r => chainList 4 r.2.mhandles r.1) = some [0xFF, 0x100] ∧
    (0x100 &&& 0x100 : Nat) ≠ 0 := by
  refine ⟨by decide, by decide, by decide⟩

/-! ## Chain bookkeeping for the allocate/release round trip -/

theorem updIdx_self {α : Type} (f : Nat → α) (i : Nat) (v : α) :
    updIdx f i v i = v := by
  simp [updIdx]

theorem updIdx_other {α : Type} (f : Nat → α) (i j : Nat) (v : α) (h : j ≠ i) :
    updIdx f i v j = f j := by
  simp [updIdx, h]

theorem updIdx_collapse {α : Type} (f : Nat → α) (i : Nat) (v w : α) :
    updIdx (updIdx f i v) i w = updIdx f i w := by
  funext p
  by_cases h : p = i <;> simp [updIdx, h]

theorem updIdx_comm {α : Type} (f : Nat → α) (i j : Nat) (v w : α) (h : i ≠ j) :
    updIdx (updIdx f i v) j w = updIdx (updIdx f j w) i v := by
  funext p
  by_cases hi : p = i
  · subst hi
    simp [updIdx, h]
  · have hji : j ≠ i := fun he => h he.symm
    by_cases hj : p = j <;> simp [updIdx, hi, hj, hji]

/-- Last element of a list of page numbers (0 for the empty list). -/
def lastD : List Nat → Nat
  | [] => 0
  | [a] => a
  | _ :: b :: rest => lastD (b :: rest)

theorem lastD_concat (L : List Nat) (p : Nat) : lastD (L ++ [p]) = p := by
  induction L with
  | nil => rfl
  | cons a rest ih =>
    cases rest with
    | nil => rfl
    | cons b rest2 => simpa [lastD] using ih

theorem headD_concat (L : List Nat) (p : Nat) (h : L ≠ []) :
    (L ++ [p]).headD 0 = L.headD 0 := by
  cases L with
  | nil => exact absurd rfl h
  | cons a rest => rfl

/-- The writes performed on `mhandles` by a sequence of `*next = index;
next = &mhandles[index]` steps over the pages `L`, before the closing
`*next = -1`: each page is linked to its successor; the last page's slot
is still untouched. -/
def writeChainOpen (mh : Nat → Int) : List Nat → (Nat → Int)
  | [] => mh
  | [_] => mh
  | a :: b :: rest => writeChainOpen (updIdx mh a (Int.ofNat b)) (b :: rest)

/-- The same writes after the closing `*next = -1`: a complete chain over
`L` ending in -1. -/
def writeChain (mh : Nat → Int) : List Nat → (Nat → Int)
  | [] => mh
  | [a] => updIdx mh a (-1)
  | a :: b :: rest => writeChain (updIdx mh a (Int.ofNat b)) (b :: rest)

theorem writeChainOpen_notin (L : List Nat) (mh : Nat → Int) (q : Nat)
    (hq : q ∉ L) : writeChainOpen mh L q = mh q := by
  induction L generalizing mh with
  | nil => rfl
  | cons a rest ih =>
    cases rest with
    | nil => rfl
    | cons b rest2 =>
      rw [writeChainOpen, ih _ (fun hm => hq (List.mem_cons_of_mem a hm)),
        updIdx_other]
      intro he
      exact hq (he ▸ List.mem_cons_self a _)

theorem writeChain_notin (L : List Nat) (mh : Nat → Int) (q : Nat)
    (hq : q ∉ L) : writeChain mh L q = mh q := by
  induction L generalizing mh with
  | nil => rfl
  | cons a rest ih =>
    cases rest with
    | nil =>
      rw [writeChain, updIdx_other]
      intro he
      exact hq (he ▸ List.mem_cons_self a _)
    | cons b rest2 =>
      rw [writeChain, ih _ (fun hm => hq (List.mem_cons_of_mem a hm)),
        updIdx_other]
      intro he
      exact hq (he ▸ List.mem_cons_self a _)

theorem writeChainOpen_upd_comm (L : List Nat) (mh : Nat → Int) (x : Nat)
    (v : Int) (hx : x ∉ L) :
    writeChainOpen (updIdx mh x v) L = updIdx (writeChainOpen mh L) x v := by
  induction L generalizing mh with
  | nil => rfl
  | cons a rest ih =>
    cases rest with
    | nil => rfl
    | cons b rest2 =>
      have hxa : a ≠ x := fun he => hx (he ▸ List.mem_cons_self a _)
      rw [writeChainOpen, updIdx_comm mh x a v (Int.ofNat b) (fun he => hxa he.symm),
        ih _ (fun hm => hx (List.mem_cons_of_mem a hm)), writeChainOpen]

theorem writeChain_upd_comm (L : List Nat) (mh : Nat → Int) (x : Nat)
    (v : Int) (hx : x ∉ L) :
    writeChain (updIdx mh x v) L = updIdx (writeChain mh L) x v := by
  induction L generalizing mh with
  | nil => rfl
  | cons a rest ih =>
    cases rest with
    | nil =>
      have hxa : a ≠ x := fun he => hx (he ▸ List.mem_cons_self a _)
      rw [writeChain, writeChain, updIdx_comm mh x a v (-1) (fun he => hxa he.symm)]
    | cons b rest2 =>
      have hxa : a ≠ x := fun he => hx (he ▸ List.mem_cons_self a _)
      rw [writeChain, updIdx_comm mh x a v (Int.ofNat b) (fun he => hxa he.symm),
        ih _ (fun hm => hx (List.mem_cons_of_mem a hm)), writeChain]

theorem writeChainOpen_concat (L : List Nat) (mh : Nat → Int) (p : Nat)
    (h : L ≠ []) :
    writeChainOpen mh (L ++ [p]) =
      updIdx (writeChainOpen mh L) (lastD L) (Int.ofNat p) := by
  induction L generalizing mh with
  | nil => exact absurd rfl h
  | cons a rest ih =>
    cases rest with
    | nil => rfl
    | cons b rest2 =>
      show writeChainOpen (updIdx mh a (Int.ofNat b)) ((b :: rest2) ++ [p]) = _
      rw [ih _ (by simp)]
      rfl

theorem writeChain_eq_open (L : List Nat) (mh : Nat → Int) (h : L ≠ []) :
    writeChain mh L = updIdx (writeChainOpen mh L) (lastD L) (-1) := by
  induction L generalizing mh with
  | nil => exact absurd rfl h
  | cons a rest ih =>
    cases rest with
    | nil => rfl
    | cons b rest2 =>
      show writeChain (updIdx mh a (Int.ofNat b)) (b :: rest2) = _
      rw [ih _ (by simp)]
      rfl

theorem writeChainOpen_ne_zero (L : List Nat) (mh : Nat → Int) (q : Nat)
    (hND : L.Nodup) (hpos : ∀ x ∈ L, 0 < x) (hq : q ∈ L) (hql : q ≠ lastD L) :
    writeChainOpen mh L q ≠ 0 := by
  induction L generalizing mh with
  | nil => exact absurd hq (List.not_mem_nil q)
  | cons a rest ih =>
    cases rest with
    | nil =>
      rcases List.mem_singleton.mp hq with rfl
      exact absurd rfl hql
    | cons b rest2 =>
      rw [writeChainOpen]
      rcases List.mem_cons.mp hq with rfl | hq2
      · have hnotin : q ∉ b :: rest2 := (List.nodup_cons.mp hND).1
        rw [writeChainOpen_notin _ _ _ hnotin, updIdx_self]
        have hb : 0 < b := hpos b (List.mem_cons_of_mem _ (List.mem_cons_self b _))
        simp
        omega
      · exact ih _ (List.nodup_cons.mp hND).2
          (fun x hx => hpos x (List.mem_cons_of_mem a hx)) hq2 hql

theorem writeChain_ne_zero (L : List Nat) (mh : Nat → Int) (q : Nat)
    (hND : L.Nodup) (hpos : ∀ x ∈ L, 0 < x) (hq : q ∈ L) :
    writeChain mh L q ≠ 0 := by
  have hne : L ≠ [] := by
    intro he
    rw [he] at hq
    exact List.not_mem_nil q hq
  rw [writeChain_eq_open L mh hne]
  by_cases hql : q = lastD L
  · rw [hql, updIdx_self]
    simp
  · rw [updIdx_other _ _ _ _ hql]
    exact writeChainOpen_ne_zero L mh q hND hpos hq hql

/-- Releasing the head of a threaded chain over `L` zeroes exactly the
pages of `L`. -/
theorem releaseLoop_writeChain (L : List Nat) (mh : Nat → Int)
    (hND : L.Nodup) (hpos : ∀ x ∈ L, 0 < x) (hL : L ≠ []) :
    releaseLoop L.length (writeChain mh L) (Int.ofNat (L.headD 0)) =
      some (fun p => if p ∈ L then 0 else mh p) := by
  induction L generalizing mh with
  | nil => exact absurd rfl hL
  | cons a rest ih =>
    cases rest with
    | nil =>
      have ha : 0 < a := hpos a (List.mem_cons_self a _)
      have hno : ¬(Int.ofNat a ≤ 0) := by
        simp only [Int.ofNat_eq_coe]
        omega
      show releaseLoop 1 (updIdx mh a (-1)) (Int.ofNat a) = _
      rw [releaseLoop, if_neg hno]
      rw [show (Int.ofNat a).toNat = a from Int.toNat_ofNat a]
      rw [updIdx_collapse, updIdx_self]
      rw [releaseLoop, if_pos (by norm_num)]
      congr 1
      funext p
      by_cases hp : p = a <;> simp [updIdx, hp]
    | cons b rest2 =>
      have ha : 0 < a := hpos a (List.mem_cons_self a _)
      have hND2 : (b :: rest2).Nodup := (List.nodup_cons.mp hND).2
      have hna : a ∉ b :: rest2 := (List.nodup_cons.mp hND).1
      have hpos2 : ∀ x ∈ b :: rest2, 0 < x :=
        fun x hx => hpos x (List.mem_cons_of_mem a hx)
      have hno : ¬(Int.ofNat a ≤ 0) := by
        simp only [Int.ofNat_eq_coe]
        omega
      have hval : writeChain mh (a :: b :: rest2) a = Int.ofNat b := by
        show writeChain (updIdx mh a (Int.ofNat b)) (b :: rest2) a = _
        rw [writeChain_notin _ _ _ hna, updIdx_self]
      have hst : updIdx (writeChain mh (a :: b :: rest2)) a 0 =
          writeChain (updIdx mh a 0) (b :: rest2) := by
        show updIdx (writeChain (updIdx mh a (Int.ofNat b)) (b :: rest2)) a 0 = _
        rw [writeChain_upd_comm _ _ _ _ hna, updIdx_collapse,
          ← writeChain_upd_comm _ _ _ _ hna]
      show releaseLoop ((b :: rest2).length + 1)
        (writeChain mh (a :: b :: rest2)) (Int.ofNat a) = _
      have hih := ih (updIdx mh a 0) hND2 hpos2 (by simp)
      rw [show ((b :: rest2).headD 0) = b from rfl] at hih
      rw [releaseLoop, if_neg hno,
        show (Int.ofNat a).toNat = a from Int.toNat_ofNat a, hst, hval, hih]
      congr 1
      funext p
      by_cases hpa : p = a
      · subst hpa
        have : p ∈ p :: b :: rest2 := List.mem_cons_self p _
        simp [this, hna, updIdx]
      · by_cases hpm : p ∈ b :: rest2
        · simp [hpm, List.mem_cons_of_mem a hpm]
        · have : p ∉ a :: b :: rest2 := by
            intro hc
            rcases List.mem_cons.mp hc with rfl | hc2
            · exact hpa rfl
            · exact hpm hc2
          simp [hpm, this, updIdx, hpa]

/-- The sequence-branch threading writes the canonical chain over the run
`[index, index + pages)`. -/
theorem threadChainSeq_eq_writeChain (n : Nat) (hn : 1 ≤ n) :
    ∀ (mh : Nat → Int) (r : Nat),
      threadChainSeq mh r n = writeChain mh (List.range' r n) := by
  induction n with
  | zero => omega
  | succ m ih =>
    intro mh r
    cases m with
    | zero => rfl
    | succ k =>
      show threadChainSeq (updIdx mh r (Int.ofNat (r + 1))) (r + 1) (k + 1) =
        writeChain mh (List.range' r (k + 2))
      rw [ih (by omega)]
      rfl

/-- Whenever a `BestMatch` scan returns a nonzero start page, the `size`
pages from it are free in the scanned array. -/
theorem bestMatchScan_free (mh : Nat → Int) (reported size : Nat) :
    ∀ (fuel index first best best_first : Nat),
      (first ≠ 0 → first ≤ index ∧ ∀ p, first ≤ p → p < index → mh p = 0) →
      (best_first ≠ 0 → ∀ i, i < size → mh (best_first + i) = 0) →
      BestMatchScan mh reported size fuel index first best best_first ≠ 0 →
      ∀ i, i < size →
        mh (BestMatchScan mh reported size fuel index first best best_first + i) = 0 := by
  intro fuel
  induction fuel with
  | zero =>
    intro index first best bf ha hb hres i hi
    by_cases hc : first ≠ 0 ∧ size ≤ index - first ∧ index - first < best
    · rw [BestMatchScan, if_pos hc] at hres ⊢
      obtain ⟨hfi, hrun⟩ := ha hc.1
      exact hrun (first + i) (by omega) (by omega)
    · rw [BestMatchScan, if_neg hc] at hres ⊢
      exact hb hres i hi
  | succ f ihf =>
    intro index first best bf ha hb hres i hi
    rw [BestMatchScan] at hres ⊢
    by_cases hlt : index < reported
    · rw [if_pos hlt] at hres ⊢
      by_cases hf : first = 0
      · rw [if_pos hf] at hres ⊢
        by_cases hmh : mh index = 0
        · rw [if_pos hmh] at hres ⊢
          refine ihf (index + 1) index best bf ?_ hb hres i hi
          intro _
          exact ⟨by omega, fun p h1 h2 => by
            have : p = index := by omega
            rw [this]
            exact hmh⟩
        · rw [if_neg hmh] at hres ⊢
          exact ihf (index + 1) 0 best bf (fun h0 => absurd rfl h0) hb hres i hi
      · rw [if_neg hf] at hres ⊢
        by_cases huse : mh index ≠ 0
        · rw [if_pos huse] at hres ⊢
          by_cases heq : index - first = size
          · rw [if_pos heq] at hres ⊢
            obtain ⟨hfi, hrun⟩ := ha hf
            exact hrun (first + i) (by omega) (by omega)
          · rw [if_neg heq] at hres ⊢
            by_cases hrec : size < index - first ∧ index - first < best
            · rw [if_pos hrec] at hres ⊢
              refine ihf (index + 1) 0 (index - first) first
                (fun h0 => absurd rfl h0) ?_ hres i hi
              intro _
              obtain ⟨hfi, hrun⟩ := ha hf
              exact fun j hj => hrun (first + j) (by omega) (by omega)
            · rw [if_neg hrec] at hres ⊢
              exact ihf (index + 1) 0 best bf (fun h0 => absurd rfl h0) hb hres i hi
        · rw [if_neg huse] at hres ⊢
          have hmh : mh index = 0 := not_not.mp huse
          refine ihf (index + 1) first best bf ?_ hb hres i hi
          intro h0
          obtain ⟨hfi, hrun⟩ := ha h0
          refine ⟨by omega, fun p h1 h2 => ?_⟩
          by_cases hpi : p = index
          · rw [hpi]
            exact hmh
          · exact hrun p h1 (by omega)
    · rw [if_neg hlt] at hres ⊢
      by_cases hc : first ≠ 0 ∧ size ≤ index - first ∧ index - first < best
      · rw [if_pos hc] at hres ⊢
        obtain ⟨hfi, hrun⟩ := ha hc.1
        exact hrun (first + i) (by omega) (by omega)
      · rw [if_neg hc] at hres ⊢
        exact hb hres i hi

/-- The `size` pages from a successful `BestMatch` are free. -/
theorem BestMatch_free (s : MemoryBlock) (size : Nat)
    (h : BestMatch s size ≠ 0) :
    ∀ i, i < size → s.mhandles (BestMatch s size + i) = 0 := by
  have hmain := bestMatchScan_free s.mhandles s.reported_pages size
    s.reported_pages s.xms_start 0 0xfffffff 0
    (fun h0 => absurd rfl h0) (fun h0 => absurd rfl h0)
  exact hmain h

/-- Behaviour of one run of the inner gather loop starting mid-pass: from
the open chain over `L` (whose last taken page is `index - 1`), it takes
some prefix `[index, index + k)` of free pages and leaves the chain open
over `L ++ [index, index + k)`. -/
theorem gatherInner_open (mh : Nat → Int) :
    ∀ (pages : Nat) (L : List Nat) (index : Nat),
      L ≠ [] → lastD L = index - 1 → 1 ≤ index →
      L.Nodup → (∀ x ∈ L, 0 < x ∧ mh x = 0) →
      ∃ k, k ≤ pages ∧
        gatherInner (writeChainOpen mh L) index pages (some (index - 1))
            (Int.ofNat (L.headD 0)) =
          (writeChainOpen mh (L ++ List.range' index k), index + k, pages - k,
            some (lastD (L ++ List.range' index k)), Int.ofNat (L.headD 0)) ∧
        (L ++ List.range' index k).Nodup ∧
        (∀ x ∈ L ++ List.range' index k, 0 < x ∧ mh x = 0) ∧
        lastD (L ++ List.range' index k) = index + k - 1 := by
  intro pages
  induction pages with
  | zero =>
    intro L index hne hlast hidx hND hfacts
    refine ⟨0, Nat.le_refl 0, ?_, by simpa using hND, by simpa using hfacts,
      by simpa using hlast⟩
    show (writeChainOpen mh L, index, 0, some (index - 1), Int.ofNat (L.headD 0)) = _
    simp [hlast]
  | succ p ih =>
    intro L index hne hlast hidx hND hfacts
    by_cases hval : writeChainOpen mh L index = 0
    · have hnotin : index ∉ L := by
        intro hmem
        have hnl : index ≠ lastD L := by omega
        exact writeChainOpen_ne_zero L mh index hND (fun x hx => (hfacts x hx).1)
          hmem hnl hval
      have hmh0 : mh index = 0 := by
        rw [← writeChainOpen_notin L mh index hnotin]
        exact hval
      have hstep : gatherInner (writeChainOpen mh L) index (p + 1)
          (some (index - 1)) (Int.ofNat (L.headD 0)) =
          gatherInner (writeChainOpen mh (L ++ [index])) (index + 1) p
            (some index) (Int.ofNat (L.headD 0)) := by
        rw [gatherInner, if_pos hval]
        show gatherInner (updIdx (writeChainOpen mh L) (index - 1) (Int.ofNat index))
          (index + 1) p (some index) (Int.ofNat (L.headD 0)) = _
        rw [writeChainOpen_concat L mh index hne, hlast]
      have hND2 : (L ++ [index]).Nodup := by
        simp [List.nodup_append, hND, hnotin]
      have hfacts2 : ∀ x ∈ L ++ [index], 0 < x ∧ mh x = 0 := by
        intro x hx
        rcases List.mem_append.mp hx with hx1 | hx2
        · exact hfacts x hx1
        · rcases List.mem_singleton.mp hx2 with rfl
          exact ⟨hidx, hmh0⟩
      obtain ⟨k2, hk2, heq, hND3, hfacts3, hlast3⟩ :=
        ih (L ++ [index]) (index + 1) (by simp) (by simp [lastD_concat])
          (by omega) hND2 hfacts2
      have hli : (L ++ [index]) ++ List.range' (index + 1) k2 =
          L ++ List.range' index (k2 + 1) := by
        rw [List.append_assoc]
        rfl
      simp only [Nat.add_sub_cancel] at heq
      rw [hli, headD_concat L index hne] at heq
      rw [hli] at hND3 hfacts3 hlast3
      refine ⟨k2 + 1, by omega, ?_, hND3, hfacts3, by omega⟩
      rw [hstep, heq]
      have h1 : index + 1 + k2 = index + (k2 + 1) := by omega
      have h2 : p - k2 = p + 1 - (k2 + 1) := by omega
      rw [h1, h2]
    · refine ⟨0, by omega, ?_, by simpa using hND, by simpa using hfacts,
        by simpa using hlast⟩
      rw [gatherInner, if_neg hval]
      simp [hlast]

/-- Behaviour of one full run of the inner gather loop entered at the
start of an outer pass, from a fully terminated chain over `L` (or from
nothing).  Either it takes no page, or it takes `k ≥ 1` free pages
`[index, index + k)` and leaves the chain open over them. -/
theorem gatherInner_closed (mh : Nat → Int) (pages : Nat) (st : Nat → Int)
    (L : List Nat) (index : Nat) (next : Option Nat) (ret : Int)
    (hentry : (L = [] ∧ st = mh ∧ next = none) ∨
      (L ≠ [] ∧ st = writeChain mh L ∧ next = some (lastD L) ∧
        ret = Int.ofNat (L.headD 0)))
    (hND : L.Nodup) (hfacts : ∀ x ∈ L, 0 < x ∧ mh x = 0) (hidx : 1 ≤ index) :
    ∃ k, k ≤ pages ∧
      ((k = 0 ∧ gatherInner st index pages next ret = (st, index, pages, next, ret)) ∨
        (1 ≤ k ∧
          gatherInner st index pages next ret =
            (writeChainOpen mh (L ++ List.range' index k), index + k, pages - k,
              some (lastD (L ++ List.range' index k)),
              Int.ofNat ((L ++ List.range' index k).headD 0)) ∧
          (L ++ List.range' index k).Nodup ∧
          (∀ x ∈ L ++ List.range' index k, 0 < x ∧ mh x = 0) ∧
          lastD (L ++ List.range' index k) = index + k - 1 ∧
          L ++ List.range' index k ≠ [])) := by
  cases pages with
  | zero => exact ⟨0, Nat.le_refl 0, Or.inl ⟨rfl, rfl⟩⟩
  | succ p =>
    by_cases hval : st index = 0
    · have hnotin : index ∉ L := by
        intro hmem
        rcases hentry with ⟨hL, hst, _⟩ | ⟨hL, hst, _, _⟩
        · rw [hL] at hmem
          exact List.not_mem_nil index hmem
        · rw [hst] at hval
          exact writeChain_ne_zero L mh index hND
            (fun x hx => (hfacts x hx).1) hmem hval
      have hmh0 : mh index = 0 := by
        rcases hentry with ⟨_, hst, _⟩ | ⟨_, hst, _, _⟩
        · rw [hst] at hval
          exact hval
        · rw [hst, writeChain_notin L mh index hnotin] at hval
          exact hval
      have hND2 : (L ++ [index]).Nodup := by
        simp [List.nodup_append, hND, hnotin]
      have hfacts2 : ∀ x ∈ L ++ [index], 0 < x ∧ mh x = 0 := by
        intro x hx
        rcases List.mem_append.mp hx with hx1 | hx2
        · exact hfacts x hx1
        · rcases List.mem_singleton.mp hx2 with rfl
          exact ⟨hidx, hmh0⟩
      have hstep : gatherInner st index (p + 1) next ret =
          gatherInner (writeChainOpen mh (L ++ [index])) (index + 1) p
            (some index) (Int.ofNat ((L ++ [index]).headD 0)) := by
        rcases hentry with ⟨hL, hst, hnext⟩ | ⟨hL, hst, hnext, hret⟩
        · subst hL
          rw [hst, hnext, gatherInner, if_pos hmh0]
          rfl
        · rw [hst, hnext, hret, gatherInner, if_pos (hst ▸ hval)]
          show gatherInner (updIdx (writeChain mh L) (lastD L) (Int.ofNat index))
            (index + 1) p (some index) (Int.ofNat (L.headD 0)) = _
          rw [writeChain_eq_open L mh hL, updIdx_collapse,
            ← writeChainOpen_concat L mh index hL, headD_concat L index hL]
      obtain ⟨k2, hk2, heq, hND3, hfacts3, hlast3⟩ :=
        gatherInner_open mh p (L ++ [index]) (index + 1) (by simp)
          (by simp [lastD_concat]) (by omega) hND2 hfacts2
      have hli : (L ++ [index]) ++ List.range' (index + 1) k2 =
          L ++ List.range' index (k2 + 1) := by
        rw [List.append_assoc]
        rfl
      simp only [Nat.add_sub_cancel] at heq
      rw [hli] at heq hND3 hfacts3 hlast3
      refine ⟨k2 + 1, by omega, Or.inr ⟨by omega, ?_, hND3, hfacts3, by omega,
        by simp [List.range']⟩⟩
      rw [hstep, heq]
      have h1 : index + 1 + k2 = index + (k2 + 1) := by omega
      have h2 : p - k2 = p + 1 - (k2 + 1) := by omega
      have h3 : (L ++ [index]).headD 0 = (L ++ List.range' index (k2 + 1)).headD 0 := by
        cases L with
        | nil => rfl
        | cons a rest => rfl
      rw [h1, h2, h3]
    · exact ⟨0, by omega, Or.inl ⟨rfl, by rw [gatherInner, if_neg hval]⟩⟩

/-- When the outer gather loop completes (without `E_Exit` or running
out of fuel), its result array is the original one with a terminated
chain threaded over some non-duplicated list `L2` of originally-free
positive pages, and the result handle is the chain head.  The chain is
nonempty whenever pages were requested (or were already taken). -/
theorem gatherOuter_spec (mh : Nat → Int) (bm : (Nat → Int) → Nat) :
    ∀ (fuel pagesLeft : Nat) (st : Nat → Int) (L : List Nat) (next : Option Nat)
      (ret : Int) (res : (Nat → Int) × Int),
      ((L = [] ∧ st = mh ∧ next = none) ∨
        (L ≠ [] ∧ st = writeChain mh L ∧ next = some (lastD L) ∧
          ret = Int.ofNat (L.headD 0))) →
      L.Nodup → (∀ x ∈ L, 0 < x ∧ mh x = 0) →
      gatherOuter bm fuel st pagesLeft next ret = some res →
      ∃ L2 : List Nat, L2.Nodup ∧ (∀ x ∈ L2, 0 < x ∧ mh x = 0) ∧
        ((L2 = [] ∧ res.1 = mh) ∨
          (L2 ≠ [] ∧ res.1 = writeChain mh L2 ∧
            res.2 = Int.ofNat (L2.headD 0))) ∧
        ((L ≠ [] ∨ 1 ≤ pagesLeft) → L2 ≠ []) := by
  intro fuel
  induction fuel with
  | zero =>
    intro pagesLeft st L next ret res hentry hND hfacts hres
    rw [gatherOuter] at hres
    by_cases hp : pagesLeft = 0
    · rw [if_pos hp] at hres
      rcases Option.some_inj.mp hres with rfl
      refine ⟨L, hND, hfacts, ?_, ?_⟩
      · rcases hentry with ⟨hL, hst, _⟩ | ⟨hL, hst, _, hret⟩
        · exact Or.inl ⟨hL, hst⟩
        · exact Or.inr ⟨hL, hst, hret⟩
      · intro hor
        rcases hor with hL | hpl
        · exact hL
        · omega
    · rw [if_neg hp] at hres
      exact absurd hres (by simp)
  | succ f ihf =>
    intro pagesLeft st L next ret res hentry hND hfacts hres
    rw [gatherOuter] at hres
    by_cases hp : pagesLeft = 0
    · rw [if_pos hp] at hres
      rcases Option.some_inj.mp hres with rfl
      refine ⟨L, hND, hfacts, ?_, ?_⟩
      · rcases hentry with ⟨hL, hst, _⟩ | ⟨hL, hst, _, hret⟩
        · exact Or.inl ⟨hL, hst⟩
        · exact Or.inr ⟨hL, hst, hret⟩
      · intro hor
        rcases hor with hL | hpl
        · exact hL
        · omega
    · rw [if_neg hp] at hres
      by_cases hbm : bm st = 0
      · rw [if_pos hbm] at hres
        exact absurd hres (by simp)
      · rw [if_neg hbm] at hres
        obtain ⟨k, hk, hcase⟩ :=
          gatherInner_closed mh pagesLeft st L (bm st) next ret hentry hND
            hfacts (by omega)
        rcases hcase with ⟨hk0, hgi⟩ | ⟨hk1, hgi, hND2, hfacts2, hlast2, hne2⟩
        · rw [hgi] at hres
          rcases hentry with ⟨hL, hst, hnext⟩ | ⟨hL, hst, hnext, hret⟩
          · rw [hnext] at hres
            have hres2 : gatherOuter bm f st pagesLeft none (-1) = some res := hres
            obtain ⟨L2, hA, hB, hC, hD⟩ := ihf pagesLeft st L none (-1) res
              (Or.inl ⟨hL, hst, rfl⟩) hND hfacts hres2
            refine ⟨L2, hA, hB, hC, fun _ => hD (Or.inr (by omega))⟩
          · rw [hnext] at hres
            have hclose : updIdx st (lastD L) (-1) = writeChain mh L := by
              rw [hst, writeChain_eq_open L mh hL, updIdx_collapse,
                ← writeChain_eq_open L mh hL]
            have hres2 : gatherOuter bm f (updIdx st (lastD L) (-1)) pagesLeft
                (some (lastD L)) ret = some res := hres
            rw [hclose] at hres2
            obtain ⟨L2, hA, hB, hC, hD⟩ := ihf pagesLeft (writeChain mh L) L
              (some (lastD L)) ret res (Or.inr ⟨hL, rfl, rfl, hret⟩) hND hfacts hres2
            exact ⟨L2, hA, hB, hC, fun _ => hD (Or.inl hL)⟩
        · rw [hgi] at hres
          have hclose : updIdx (writeChainOpen mh (L ++ List.range' (bm st) k))
              (lastD (L ++ List.range' (bm st) k)) (-1) =
              writeChain mh (L ++ List.range' (bm st) k) := by
            rw [← writeChain_eq_open _ mh hne2]
          have hres2 : gatherOuter bm f
              (writeChain mh (L ++ List.range' (bm st) k))
              (pagesLeft - k)
              (some (lastD (L ++ List.range' (bm st) k)))
              (Int.ofNat ((L ++ List.range' (bm st) k).headD 0)) = some res := by
            rw [← hclose]
            exact hres
          obtain ⟨L2, hA, hB, hC, hD⟩ := ihf (pagesLeft - k)
            (writeChain mh (L ++ List.range' (bm st) k))
            (L ++ List.range' (bm st) k)
            (some (lastD (L ++ List.range' (bm st) k)))
            (Int.ofNat ((L ++ List.range' (bm st) k).headD 0)) res
            (Or.inr ⟨hne2, rfl, rfl, rfl⟩) hND2 hfacts2 hres2
          exact ⟨L2, hA, hB, hC, fun _ => hD (Or.inl hne2)⟩

/-- C7: whenever `MEM_AllocatePages(n, sequence)` returns (for any page
count and either value of the sequence flag), releasing the returned
handle with `MEM_ReleasePages` restores `MEM_FreeTotal()` to its value
before the allocation (the release walk terminates within chain-length
steps). -/
theorem MEM_AllocatePages_release_restores (s : MemoryBlock) (n : Nat)
    (sequence : Bool) (ret : Int) (s1 : MemoryBlock)
    (halloc : MEM_AllocatePages s n sequence = some (ret, s1)) :
    ∃ (fuel : Nat) (s2 : MemoryBlock),
      MEM_ReleasePages s1 ret fuel = some s2 ∧
        MEM_FreeTotal s2 = MEM_FreeTotal s := by
  have htriv : ∀ sx : MemoryBlock, ∃ (fuel : Nat) (s2 : MemoryBlock),
      MEM_ReleasePages sx 0 fuel = some s2 ∧ MEM_FreeTotal s2 = MEM_FreeTotal sx := by
    intro sx
    refine ⟨0, { sx with mhandles := sx.mhandles }, ?_, rfl⟩
    show (releaseLoop 0 sx.mhandles 0).map _ = _
    rw [releaseLoop, if_pos (by norm_num)]
    rfl
  have hrel : ∀ (sx : MemoryBlock) (L : List Nat),
      L.Nodup → (∀ x ∈ L, 0 < x ∧ s.mhandles x = 0) → L ≠ [] →
      sx.mhandles = writeChain s.mhandles L →
      sx.xms_start = s.xms_start → sx.reported_pages = s.reported_pages →
      ∃ (fuel : Nat) (s2 : MemoryBlock),
        MEM_ReleasePages sx (Int.ofNat (L.headD 0)) fuel = some s2 ∧
          MEM_FreeTotal s2 = MEM_FreeTotal s := by
    intro sx L hND hfacts hne hmh hx hr
    have hundo := releaseLoop_writeChain L s.mhandles hND
      (fun x hx2 => (hfacts x hx2).1) hne
    have hfun : (fun p => if p ∈ L then 0 else s.mhandles p) = s.mhandles := by
      funext p
      by_cases hp : p ∈ L
      · rw [if_pos hp, (hfacts p hp).2]
      · rw [if_neg hp]
    rw [hfun] at hundo
    refine ⟨L.length, { sx with mhandles := s.mhandles }, ?_, ?_⟩
    · show (releaseLoop L.length sx.mhandles (Int.ofNat (L.headD 0))).map _ = _
      rw [hmh, hundo]
      rfl
    · show freeTotalCount s.mhandles sx.xms_start
        (sx.reported_pages - sx.xms_start) = MEM_FreeTotal s
      rw [hx, hr]
      rfl
  rw [MEM_AllocatePages] at halloc
  by_cases hn : n = 0
  · rw [if_pos hn] at halloc
    have hps := Option.some_inj.mp halloc
    injection hps with hret hs1
    rw [← hret, ← hs1]
    exact htriv s
  · rw [if_neg hn] at halloc
    cases sequence with
    | true =>
      rw [if_pos rfl] at halloc
      by_cases hbm : BestMatch s n = 0
      · rw [if_pos hbm] at halloc
        have hps := Option.some_inj.mp halloc
        injection hps with hret hs1
        rw [← hret, ← hs1]
        exact htriv s
      · rw [if_neg hbm] at halloc
        have hps := Option.some_inj.mp halloc
        injection hps with hret hs1
        have hn1 : 1 ≤ n := by omega
        have hrpos : 1 ≤ BestMatch s n := Nat.one_le_iff_ne_zero.mpr hbm
        have hthread : threadChainSeq s.mhandles (BestMatch s n) n =
            writeChain s.mhandles (List.range' (BestMatch s n) n) :=
          threadChainSeq_eq_writeChain n hn1 _ _
        have hNDr : (List.range' (BestMatch s n) n).Nodup := List.nodup_range' _ _
        have hfactsr : ∀ x ∈ List.range' (BestMatch s n) n,
            0 < x ∧ s.mhandles x = 0 := by
          intro x hx
          obtain ⟨h1, h2⟩ := List.mem_range'_1.mp hx
          refine ⟨by omega, ?_⟩
          have hfree := BestMatch_free s n hbm (x - BestMatch s n) (by omega)
          rwa [show BestMatch s n + (x - BestMatch s n) = x by omega] at hfree
        have hner : List.range' (BestMatch s n) n ≠ [] := by
          rw [ne_eq, List.range'_eq_nil]
          omega
        have hhead : (List.range' (BestMatch s n) n).headD 0 = BestMatch s n := by
          obtain ⟨m, rfl⟩ : ∃ m, n = m + 1 := ⟨n - 1, by omega⟩
          rfl
        have hs1mh : s1.mhandles =
            writeChain s.mhandles (List.range' (BestMatch s n) n) := by
          rw [← hs1]
          exact hthread
        have hs1x : s1.xms_start = s.xms_start := by rw [← hs1]
        have hs1r : s1.reported_pages = s.reported_pages := by rw [← hs1]
        obtain ⟨fuel, s2, hA, hB⟩ := hrel s1 (List.range' (BestMatch s n) n)
          hNDr hfactsr hner hs1mh hs1x hs1r
        refine ⟨fuel, s2, ?_, hB⟩
        rw [← hret, ← hhead]
        exact hA
    | false =>
      rw [if_neg (by decide)] at halloc
      by_cases hfree : MEM_FreeTotal s < n
      · rw [if_pos hfree] at halloc
        have hps := Option.some_inj.mp halloc
        injection hps with hret hs1
        rw [← hret, ← hs1]
        exact htriv s
      · rw [if_neg hfree] at halloc
        cases hg : gatherOuter (bmClosure s 1) n s.mhandles n none 0 with
        | none =>
          rw [hg] at halloc
          exact absurd halloc (by simp)
        | some pr =>
          obtain ⟨mh2, ret2⟩ := pr
          rw [hg] at halloc
          have hps := Option.some_inj.mp halloc
          injection hps with hret hs1
          obtain ⟨L2, hND2, hfacts2, hC, hD⟩ :=
            gatherOuter_spec s.mhandles (bmClosure s 1) n n s.mhandles [] none 0
              (mh2, ret2) (Or.inl ⟨rfl, rfl, rfl⟩) List.nodup_nil (by simp) hg
          have hL2 : L2 ≠ [] := hD (Or.inr (by omega))
          rcases hC with ⟨he, _⟩ | ⟨_, hw, hr2⟩
          · exact absurd he hL2
          · dsimp only at hw hr2
            have hs1mh : s1.mhandles = writeChain s.mhandles L2 := by
              rw [← hs1]
              exact hw
            have hs1x : s1.xms_start = s.xms_start := by rw [← hs1]
            have hs1r : s1.reported_pages = s.reported_pages := by rw [← hs1]
            obtain ⟨fuel, s2, hA, hB⟩ := hrel s1 L2 hND2 hfacts2 hL2 hs1mh hs1x hs1r
            refine ⟨fuel, s2, ?_, hB⟩
            rw [← hret, hr2]
            exact hA

/-- A tiny allocator state: pages 1..3 free. -/
def allocWitState : MemoryBlock := { reported_pages := 4, xms_start := 1 }

theorem MEM_AllocatePages_release_restores_witness :
    MEM_AllocatePages allocWitState 2 true =
      some (1, { allocWitState with
        mhandles := threadChainSeq allocWitState.mhandles 1 2 }) ∧
    ∃ (fuel : Nat) (s2 : MemoryBlock),
      MEM_ReleasePages { allocWitState with
          mhandles := threadChainSeq allocWitState.mhandles 1 2 } 1 fuel = some s2 ∧
        MEM_FreeTotal s2 = MEM_FreeTotal allocWitState :=
  ⟨rfl, MEM_AllocatePages_release_restores _ 2 true 1 _ rfl⟩

end DosboxMem
